import Mathlib

/-
Verification of the smartquote core (smartquotes/core.py).

The development embeds the two public functions of the package,
`convert_to_smart_quotes` (per-character quote direction inference) and
`smart_quote_markdown` (masking of fenced / inline / indented code regions,
conversion of the remaining prose, restoration of the masked regions), as
executable Lean functions over `List Char`, and proves the specified
properties about them.

Python strings are modelled as `List Char`; the Python idiom of using the
empty string `""` for a missing previous/next character is modelled as
`Option Char` (with `none` for "no character").  The regex substitution
loops of the markdown shield are modelled as fuel-based scans where the
fuel (the length of the scanned text) is provably sufficient because every
replacement step consumes at least one character.
-/

/-! ## Quote characters (QuoteChars / QUOTES) -/

structure QuoteChars where
  LEFT_DOUBLE : Char := '“'
  RIGHT_DOUBLE : Char := '”'
  LEFT_SINGLE : Char := '‘'
  RIGHT_SINGLE : Char := '’'
  STRAIGHT_DOUBLE : Char := '\u0022'
  STRAIGHT_SINGLE : Char := '\u0027'

def QUOTES : QuoteChars := {}

/-- The `_OPENING_CONTEXT` frozenset from core.py: characters that indicate
an opening quote should follow. -/
def _OPENING_CONTEXT : List Char :=
  [' ', '\t', '\n', '\r', '(', '[', '{', '<', QUOTES.LEFT_DOUBLE, QUOTES.LEFT_SINGLE]

/-- `_is_letter` from core.py: regex `[a-zA-Z]` matched against the
(possibly missing) character; the empty string matches nothing. -/
def _is_letter : Option Char → Bool
  | none => false
  | some c => (decide ('a' ≤ c) && decide (c ≤ 'z')) || (decide ('A' ≤ c) && decide (c ≤ 'Z'))

/-- `_is_opening_context` from core.py. -/
def _is_opening_context (prev_char : Option Char) (is_start : Bool) (opposite_quote : Char) : Bool :=
  is_start ||
    (match prev_char with
     | none => false
     | some p => _OPENING_CONTEXT.contains p || p == opposite_quote)

/-- `_convert_char` from core.py: core conversion logic for a single character. -/
def _convert_char (char : Char) (prev_char next_char : Option Char) (is_start : Bool) : Char :=
  if char = QUOTES.STRAIGHT_DOUBLE then
    if _is_opening_context prev_char is_start QUOTES.LEFT_SINGLE then
      QUOTES.LEFT_DOUBLE
    else
      QUOTES.RIGHT_DOUBLE
  else if char = QUOTES.STRAIGHT_SINGLE then
    if _is_letter prev_char && _is_letter next_char then
      QUOTES.RIGHT_SINGLE
    else if _is_opening_context prev_char is_start QUOTES.LEFT_DOUBLE then
      QUOTES.LEFT_SINGLE
    else
      QUOTES.RIGHT_SINGLE
  else
    char

/-- `text[i - 1] if i > 0 else ""` from the loop of `convert_to_smart_quotes`. -/
def prevOf (s : List Char) (i : Nat) : Option Char :=
  if i = 0 then none else s.get? (i - 1)

/-- `text[i + 1] if i < len(text) - 1 else ""` from the loop of
`convert_to_smart_quotes` (out-of-range lookup yields `none`). -/
def nextOf (s : List Char) (i : Nat) : Option Char :=
  s.get? (i + 1)

/-- `convert_to_smart_quotes` from core.py: one left-to-right pass,
converting each character with `_convert_char` applied to the current
character, its neighbours and the start-of-text flag. -/
def convert_to_smart_quotes (s : List Char) : List Char :=
  (List.range s.length).map fun i =>
    _convert_char ((s.get? i).getD ' ') (prevOf s i) (nextOf s i) (i == 0)

/-! ## The spec-side per-character rule (claim C1)

`specDirectorRule` is written from the wording of the specification
(§4.1 "Per-character decision procedure"), independently of the source
transcription above, to be compared with `_convert_char`. -/

/-- The opening-context set as enumerated by the specification. -/
def specOpeningSet : List Char :=
  [' ', '\t', '\n', '\r', '(', '[', '{', '<', '“', '‘']

/-- Spec's letter test: ASCII `[a-zA-Z]` only, empty treated as non-letter. -/
def specIsAsciiLetter : Option Char → Bool
  | none => false
  | some c => (decide ('a' ≤ c) && decide (c ≤ 'z')) || (decide ('A' ≤ c) && decide (c ≤ 'Z'))

/-- Spec's opening-context test: `is_start` OR `prev` in the opening-context
set OR `prev` equals the opposite-type left smart quote. -/
def specOpeningCheck (prev : Option Char) (is_start : Bool) (oppositeLeft : Char) : Bool :=
  is_start ||
    (match prev with
     | none => false
     | some p => specOpeningSet.contains p || p == oppositeLeft)

/-- The specification's per-character decision procedure (§4.1). -/
def specDirectorRule (prev : Option Char) (cur : Char) (next : Option Char) (is_start : Bool) : Char :=
  if cur = '\u0022' then
    if specOpeningCheck prev is_start '‘' then '“' else '”'
  else if cur = '\u0027' then
    if specIsAsciiLetter prev && specIsAsciiLetter next then '’'
    else if specOpeningCheck prev is_start '“' then '‘'
    else '’'
  else
    cur

/-! ## Basic lemmas about the director -/

theorem convert_length (s : List Char) : (convert_to_smart_quotes s).length = s.length := by
  simp [convert_to_smart_quotes]

theorem convert_get? (s : List Char) (i : Nat) (h : i < s.length) :
    (convert_to_smart_quotes s).get? i =
      some (_convert_char ((s.get? i).getD ' ') (prevOf s i) (nextOf s i) (i == 0)) := by
  simp [convert_to_smart_quotes, List.get?_eq_getElem?, List.getElem?_map, List.getElem?_range, h]

theorem convert_get?_none (s : List Char) (i : Nat) (h : s.length ≤ i) :
    (convert_to_smart_quotes s).get? i = none := by
  rw [List.get?_eq_none]
  simpa [convert_length] using h

/-- On non-quote characters `_convert_char` is the identity. -/
theorem _convert_char_other (c : Char) (p n : Option Char) (b : Bool)
    (hd : c ≠ '\u0022') (hs : c ≠ '\u0027') : _convert_char c p n b = c := by
  have h1 : QUOTES.STRAIGHT_DOUBLE = '\u0022' := rfl
  have h2 : QUOTES.STRAIGHT_SINGLE = '\u0027' := rfl
  unfold _convert_char
  rw [h1, h2, if_neg hd, if_neg hs]

/-- `_convert_char` never returns a straight quote. -/
theorem _convert_char_ne_straight (c : Char) (p n : Option Char) (b : Bool) :
    _convert_char c p n b ≠ '\u0022' ∧ _convert_char c p n b ≠ '\u0027' := by
  unfold _convert_char
  split
  · split <;> exact ⟨by decide, by decide⟩
  · split
    · split
      · exact ⟨by decide, by decide⟩
      · split <;> exact ⟨by decide, by decide⟩
    · next hd hs => exact ⟨hd, hs⟩

/-- The source's per-character logic agrees with the specification's
per-character decision procedure. -/
theorem _convert_char_eq_specRule (p : Option Char) (c : Char) (n : Option Char) (b : Bool) :
    _convert_char c p n b = specDirectorRule p c n b := rfl

/-- Any member of the director's output arises from `_convert_char`. -/
theorem convert_mem_ne_straight (s : List Char) (x : Char)
    (hx : x ∈ convert_to_smart_quotes s) : x ≠ '\u0022' ∧ x ≠ '\u0027' := by
  unfold convert_to_smart_quotes at hx
  rw [List.mem_map] at hx
  obtain ⟨i, _, rfl⟩ := hx
  exact _convert_char_ne_straight _ _ _ _

/-- If a string has no straight quotes, the director is the identity on it. -/
theorem convert_id_of_no_straight (s : List Char)
    (h : ∀ c ∈ s, c ≠ '\u0022' ∧ c ≠ '\u0027') : convert_to_smart_quotes s = s := by
  apply List.ext_get?
  intro i
  by_cases hi : i < s.length
  · set c := s.get ⟨i, hi⟩ with hcdef
    have hc : s.get? i = some c := List.get?_eq_get hi
    have hmem : c ∈ s := List.get?_mem hc
    rw [convert_get? s i hi, hc]
    simp [_convert_char_other c _ _ _ (h c hmem).1 (h c hmem).2]
  · rw [convert_get?_none s i (Nat.le_of_not_lt hi), List.get?_eq_none.mpr (Nat.le_of_not_lt hi)]

/-! ## Claims about the quote director -/

/-- C1: at every position, `convert_to_smart_quotes` emits exactly the
character given by the specification's per-character rules, computed from
`prev` (empty at the start), the current character, `next` (empty at the
end) and the start-of-text flag. -/
theorem director_matches_spec (s : List Char) (i : Nat) (c : Char)
    (h : s.get? i = some c) :
    (convert_to_smart_quotes s).get? i =
      some (specDirectorRule (prevOf s i) c (nextOf s i) (i == 0)) := by
  obtain ⟨hi, -⟩ := List.get?_eq_some.mp h
  rw [convert_get? s i hi, h]
  simp [_convert_char_eq_specRule]

/-- Witness for C1: the interior apostrophe rule fires in the middle of a
word and produces the right single smart quote. -/
theorem director_matches_spec_witness :
    (convert_to_smart_quotes ['a', '\u0027', 'b']).get? 1 = some '’' := by
  have h := director_matches_spec ['a', '\u0027', 'b'] 1 '\u0027' (by decide)
  rw [h]
  decide

/-- C2: the output of `convert_to_smart_quotes` contains zero occurrences
of the straight double quote and zero occurrences of the straight single
quote, for every input. -/
theorem convert_output_no_straight_quotes (s : List Char) :
    (convert_to_smart_quotes s).count '\u0022' = 0 ∧
    (convert_to_smart_quotes s).count '\u0027' = 0 := by
  constructor
  · rw [List.count_eq_zero]
    intro hmem
    exact (convert_mem_ne_straight s _ hmem).1 rfl
  · rw [List.count_eq_zero]
    intro hmem
    exact (convert_mem_ne_straight s _ hmem).2 rfl

/-- C3: `convert_to_smart_quotes` preserves the length of its input, and
every character that is not a straight quote appears unchanged at its
original position. -/
theorem convert_preserves_length_and_nonquotes (s : List Char) :
    (convert_to_smart_quotes s).length = s.length ∧
    ∀ i c, s.get? i = some c → c ≠ '\u0022' → c ≠ '\u0027' →
      (convert_to_smart_quotes s).get? i = some c := by
  refine ⟨convert_length s, fun i c hc hd hs => ?_⟩
  obtain ⟨hi, -⟩ := List.get?_eq_some.mp hc
  rw [convert_get? s i hi, hc]
  simp [_convert_char_other c _ _ _ hd hs]

/-- Witness for C3: a non-quote character passes through unchanged. -/
theorem convert_preserves_length_and_nonquotes_witness :
    (convert_to_smart_quotes ['a', '\u0022', 'b']).get? 0 = some 'a' :=
  (convert_preserves_length_and_nonquotes ['a', '\u0022', 'b']).2 0 'a'
    (by decide) (by decide) (by decide)

/-- C9: the director's output at a position depends only on the
three-character window (previous, current, next) and the start-of-string
flag; equal windows in different strings give equal output characters. -/
theorem director_depends_only_on_window (s t : List Char) (i j : Nat) (c : Char)
    (hs : s.get? i = some c) (ht : t.get? j = some c)
    (hprev : prevOf s i = prevOf t j) (hnext : nextOf s i = nextOf t j)
    (hstart : (i == 0) = (j == 0)) :
    (convert_to_smart_quotes s).get? i = (convert_to_smart_quotes t).get? j := by
  obtain ⟨hi, -⟩ := List.get?_eq_some.mp hs
  obtain ⟨hj, -⟩ := List.get?_eq_some.mp ht
  rw [convert_get? s i hi, convert_get? t j hj, hs, ht, hprev, hnext, hstart]

/-- Witness for C9: the same window embedded in two different strings
yields the same converted character. -/
theorem director_depends_only_on_window_witness :
    (convert_to_smart_quotes ['a', 'b', '\u0022', 'c']).get? 2 =
      (convert_to_smart_quotes ['z', 'b', '\u0022', 'c', 'q']).get? 2 :=
  director_depends_only_on_window ['a', 'b', '\u0022', 'c'] ['z', 'b', '\u0022', 'c', 'q']
    2 2 '\u0022' (by decide) (by decide) (by decide) (by decide) (by decide)

/-- C10: `convert_to_smart_quotes` is idempotent: its output contains no
straight quotes, and a pass over a quote-free string is the identity. -/
theorem convert_idempotent (s : List Char) :
    convert_to_smart_quotes (convert_to_smart_quotes s) = convert_to_smart_quotes s :=
  convert_id_of_no_straight _ (fun c hc => convert_mem_ne_straight s c hc)

/-! ## The markdown shield (smart_quote_markdown)

The three `re.sub` passes of core.py are embedded as leftmost-match
scanners with the exact backtracking semantics of the patterns used:

* fenced pass, pattern three backticks, non-greedy anything, three
  backticks: the match starts at the first occurrence of three backticks
  that is followed (non-greedily) by another occurrence of three backticks;
* inline pass, pattern a greedy run of backticks captured as group 1,
  non-greedy anything, then the backreference to group 1: at the leftmost
  feasible start the opener length is tried from the maximal run length
  downwards, and the content is the shortest one followed by an equal run;
* indented pass, pattern start-of-text or newline, then a line starting
  with four spaces or a tab, extended over consecutive qualifying lines
  (the matched text includes the leading newline, exactly as `match.group(0)`
  does in core.py).

Each pass replaces every non-overlapping match left to right by a freshly
numbered placeholder and records (placeholder, original text); the scans
are driven by a fuel equal to the length of the scanned text, which is
sufficient because every replacement consumes at least one character. -/

/-- Index of the first occurrence of `pat` as a contiguous sublist. -/
def findSub (pat : List Char) : List Char → Option Nat
  | [] => if pat.isPrefixOf ([] : List Char) then some 0 else none
  | c :: rest =>
    if pat.isPrefixOf (c :: rest) then some 0
    else (findSub pat rest).map (· + 1)

def _PLACEHOLDER_PREFIX : List Char := "<<SMART_QUOTES_CODE_BLOCK_".data

def _PLACEHOLDER_SUFFIX : List Char := ">>".data

/-- The placeholder minted for the `i`-th recorded code block. -/
def placeholder (i : Nat) : List Char :=
  _PLACEHOLDER_PREFIX ++ (toString i).data ++ _PLACEHOLDER_SUFFIX

def tick3 : List Char := ['\u0060', '\u0060', '\u0060']

/-- Leftmost match of the fenced-block pattern, split as
(text before the match, matched text, text after the match). -/
def fencedSplit (t : List Char) : Option (List Char × List Char × List Char) :=
  match findSub tick3 t with
  | none => none
  | some i =>
    match findSub tick3 (t.drop (i + 3)) with
    | none => none
    | some j => some (t.take i, (t.drop i).take (j + 6), t.drop (i + (j + 6)))

def fencedSubAux : Nat → Nat → List Char → List Char × List (List Char × List Char) × Nat
  | 0, idx, t => (t, [], idx)
  | fuel + 1, idx, t =>
    match fencedSplit t with
    | none => (t, [], idx)
    | some (pre, m, post) =>
      let ph := placeholder idx
      let r := fencedSubAux fuel (idx + 1) post
      (pre ++ ph ++ r.1, (ph, m) :: r.2.1, r.2.2)

/-- `re.sub` of the fenced-block pattern by placeholders. -/
def fencedSub (idx : Nat) (t : List Char) : List Char × List (List Char × List Char) × Nat :=
  fencedSubAux t.length idx t

/-- Length of the maximal leading backtick run. -/
def leadRun : List Char → Nat
  | [] => 0
  | c :: rest => if c = '\u0060' then leadRun rest + 1 else 0

def ticks (k : Nat) : List Char := List.replicate k '\u0060'

/-- Backtracking of the greedy group `(backtick+)`: try opener lengths from
`k` downwards; for each opener length the content is the shortest string
followed by an equal backtick run (the backreference). Returns the opener
length and the content length. -/
def tryK : Nat → List Char → Option (Nat × Nat)
  | 0, _ => none
  | k + 1, s =>
    match findSub (ticks (k + 1)) (s.drop (k + 1)) with
    | some j => some (k + 1, j)
    | none => tryK k s

/-- Leftmost match of the inline-code pattern: returns
(start index, opener length, content length). -/
def inlineFind : List Char → Option (Nat × Nat × Nat)
  | [] => none
  | c :: rest =>
    if c = '\u0060' then
      match tryK (leadRun (c :: rest)) (c :: rest) with
      | some (k, j) => some (0, k, j)
      | none => (inlineFind rest).map (fun x => (x.1 + 1, x.2))
    else
      (inlineFind rest).map (fun x => (x.1 + 1, x.2))

def inlineSplit (t : List Char) : Option (List Char × List Char × List Char) :=
  match inlineFind t with
  | none => none
  | some (i, k, j) =>
    some (t.take i, (t.drop i).take (k + j + k), t.drop (i + (k + j + k)))

def inlineSubAux : Nat → Nat → List Char → List Char × List (List Char × List Char) × Nat
  | 0, idx, t => (t, [], idx)
  | fuel + 1, idx, t =>
    match inlineSplit t with
    | none => (t, [], idx)
    | some (pre, m, post) =>
      let ph := placeholder idx
      let r := inlineSubAux fuel (idx + 1) post
      (pre ++ ph ++ r.1, (ph, m) :: r.2.1, r.2.2)

/-- `re.sub` of the inline-code pattern by placeholders. -/
def inlineSub (idx : Nat) (t : List Char) : List Char × List (List Char × List Char) × Nat :=
  inlineSubAux t.length idx t

def _INDENT_SPACES : List Char := [' ', ' ', ' ', ' ']

/-- A line qualifies as indented code when it starts with four spaces or a tab. -/
def qualLine (s : List Char) : Bool :=
  _INDENT_SPACES.isPrefixOf s || s.head? == some '\t'

/-- Number of characters before the next newline (the extent of `.*`). -/
def lineLen : List Char → Nat
  | [] => 0
  | c :: rest => if c = '\n' then 0 else lineLen rest + 1

def blockLenAux : Nat → List Char → Nat
  | 0, _ => 0
  | fuel + 1, s =>
    let n := lineLen s
    if (s.drop n).head? == some '\n' && qualLine (s.drop (n + 1)) then
      n + 1 + blockLenAux fuel (s.drop (n + 1))
    else n

/-- Extent of an indented block starting at a qualifying line: the line and
every consecutive qualifying line after it. -/
def blockLen (s : List Char) : Nat := blockLenAux s.length s

/-- Leftmost match of the indented-block pattern; `atStart` records whether
the scan position is the start of the whole text (the `^` alternative of
the pattern, which is not multiline in core.py). The matched extent
includes the leading newline when matched via the newline alternative. -/
def indentFindAux : List Char → Bool → Option (Nat × Nat)
  | [], _ => none
  | c :: rest, atStart =>
    if atStart && qualLine (c :: rest) then
      some (0, blockLen (c :: rest))
    else if c == '\n' && qualLine rest then
      some (0, 1 + blockLen rest)
    else
      (indentFindAux rest false).map (fun p => (p.1 + 1, p.2))

def indentFind (t : List Char) : Option (Nat × Nat) := indentFindAux t true

def indentSplit (atStart : Bool) (t : List Char) : Option (List Char × List Char × List Char) :=
  match indentFindAux t atStart with
  | none => none
  | some (i, L) => some (t.take i, (t.drop i).take L, t.drop (i + L))

def indentSubAux : Nat → Nat → Bool → List Char → List Char × List (List Char × List Char) × Nat
  | 0, idx, _, t => (t, [], idx)
  | fuel + 1, idx, atStart, t =>
    match indentSplit atStart t with
    | none => (t, [], idx)
    | some (pre, m, post) =>
      let ph := placeholder idx
      let r := indentSubAux fuel (idx + 1) false post
      (pre ++ ph ++ r.1, (ph, m) :: r.2.1, r.2.2)

/-- `re.sub` of the indented-block pattern by placeholders. -/
def indentSub (idx : Nat) (t : List Char) : List Char × List (List Char × List Char) × Nat :=
  indentSubAux t.length idx true t

/-- Python `str.replace`: replace every non-overlapping occurrence of
`pat` in `s` by `repl`, left to right. -/
def replaceAllAux : Nat → List Char → List Char → List Char → List Char
  | 0, _, _, s => s
  | _ + 1, _, _, [] => ([] : List Char)
  | fuel + 1, pat, repl, c :: rest =>
    if !pat.isEmpty && pat.isPrefixOf (c :: rest) then
      repl ++ replaceAllAux fuel pat repl ((c :: rest).drop pat.length)
    else
      c :: replaceAllAux fuel pat repl rest

def replaceAll (pat repl s : List Char) : List Char := replaceAllAux s.length pat repl s

/-- Step 5 of `smart_quote_markdown`: for each recorded block, in recorded
order, replace its placeholder by its original content. -/
def restore (blocks : List (List Char × List Char)) (s : List Char) : List Char :=
  blocks.foldl (fun acc b => replaceAll b.1 b.2 acc) s

/-- `_has_straight_quotes` from core.py. -/
def _has_straight_quotes (t : List Char) : Bool :=
  t.contains '\u0022' || t.contains '\u0027'

/-- Steps 1-5 of `smart_quote_markdown`: fenced extraction, then inline
extraction, then indented extraction (sharing one running placeholder
index and one ordered block list), then quote conversion of the masked
text, then restoration of all recorded blocks in recorded order. -/
def markdownPipeline (t : List Char) : List Char :=
  let r1 := fencedSub 0 t
  let r2 := inlineSub r1.2.2 r1.1
  let r3 := indentSub r2.2.2 r2.1
  restore (r1.2.1 ++ r2.2.1 ++ r3.2.1) (convert_to_smart_quotes r3.1)

/-- `smart_quote_markdown` from core.py. -/
def smart_quote_markdown (t : List Char) : List Char :=
  if _has_straight_quotes t then markdownPipeline t else t

/-! ## Lemmas about the shield machinery -/

theorem findSub_spec (pat : List Char) :
    ∀ (s : List Char) (i : Nat), findSub pat s = some i →
      pat.isPrefixOf (s.drop i) = true ∧ i + pat.length ≤ s.length := by
  intro s
  induction s with
  | nil =>
    intro i h
    unfold findSub at h
    split at h
    · next hp =>
      cases h
      have : pat = [] := by
        cases pat with
        | nil => rfl
        | cons a l => simp [List.isPrefixOf] at hp
      simp [this]
    · cases h
  | cons c rest ih =>
    intro i h
    unfold findSub at h
    split at h
    · next hp =>
      cases h
      exact ⟨hp, by
        have := (List.isPrefixOf_iff_prefix.mp hp).length_le
        simpa using this⟩
    · obtain ⟨i0, hi0, rfl⟩ := Option.map_eq_some'.mp h
      obtain ⟨h1, h2⟩ := ih i0 hi0
      refine ⟨by simpa using h1, ?_⟩
      simp only [List.length_cons]
      omega

theorem findSub_nil (pat : List Char) (hp : pat.isEmpty = false) :
    findSub pat ([] : List Char) = none := by
  cases pat with
  | nil => simp at hp
  | cons a l => simp [findSub, List.isPrefixOf]

/-- A backtick run occurring in `s` means `s` has a backtick. -/
theorem tick_mem_of_findSub_ticks (k : Nat) (s : List Char) (j : Nat)
    (h : findSub (ticks (k + 1)) s = some j) : '\u0060' ∈ s := by
  obtain ⟨hp, -⟩ := findSub_spec (ticks (k + 1)) s j h
  have hpre := List.isPrefixOf_iff_prefix.mp hp
  have : '\u0060' ∈ s.drop j := hpre.mem (by simp [ticks, List.replicate_succ])
  exact List.mem_of_mem_drop this

/-- Three consecutive backticks in `t` force at least three backticks in `t`. -/
theorem count_ge_three_of_findSub_tick3 (t : List Char) (i : Nat)
    (h : findSub tick3 t = some i) : 3 ≤ t.count '\u0060' := by
  obtain ⟨hp, -⟩ := findSub_spec tick3 t i h
  have hpre := List.isPrefixOf_iff_prefix.mp hp
  have h1 : 3 ≤ (t.drop i).count '\u0060' := by
    have := hpre.sublist.count_le '\u0060'
    simpa [tick3] using this
  exact le_trans h1 ((List.drop_sublist i t).count_le '\u0060')

/-- With at most one backtick there is no fenced match. -/
theorem fencedSplit_none_of_count_le_one (t : List Char) (h : t.count '\u0060' ≤ 1) :
    fencedSplit t = none := by
  unfold fencedSplit
  cases hf : findSub tick3 t with
  | none => rfl
  | some i =>
    exact absurd (count_ge_three_of_findSub_tick3 t i hf) (by omega)

/-- An opening fence with no closing fence after it yields no fenced match. -/
theorem fencedSplit_none_of_unterminated (t : List Char) (i : Nat)
    (h1 : findSub tick3 t = some i) (h2 : findSub tick3 (t.drop (i + 3)) = none) :
    fencedSplit t = none := by
  unfold fencedSplit
  rw [h1]
  simp [h2]

theorem fencedSubAux_of_none (fuel idx : Nat) (t : List Char) (h : fencedSplit t = none) :
    fencedSubAux fuel idx t = (t, [], idx) := by
  cases fuel with
  | zero => rfl
  | succ f => simp [fencedSubAux, h]

theorem fencedSub_of_none (idx : Nat) (t : List Char) (h : fencedSplit t = none) :
    fencedSub idx t = (t, [], idx) :=
  fencedSubAux_of_none t.length idx t h

theorem inlineSubAux_of_none (fuel idx : Nat) (t : List Char) (h : inlineFind t = none) :
    inlineSubAux fuel idx t = (t, [], idx) := by
  cases fuel with
  | zero => rfl
  | succ f => simp [inlineSubAux, inlineSplit, h]

theorem inlineSub_of_none (idx : Nat) (t : List Char) (h : inlineFind t = none) :
    inlineSub idx t = (t, [], idx) :=
  inlineSubAux_of_none t.length idx t h

theorem indentSubAux_of_none (fuel idx : Nat) (t : List Char) (h : indentFind t = none) :
    indentSubAux fuel idx true t = (t, [], idx) := by
  cases fuel with
  | zero => rfl
  | succ f => simp [indentSubAux, indentSplit, indentFind] at h ⊢; simp [h]

theorem indentSub_of_none (idx : Nat) (t : List Char) (h : indentFind t = none) :
    indentSub idx t = (t, [], idx) :=
  indentSubAux_of_none t.length idx t h

theorem replaceAllAux_nil (fuel : Nat) (pat repl : List Char) :
    replaceAllAux fuel pat repl ([] : List Char) = [] := by
  cases fuel with
  | zero => rfl
  | succ f => rfl

/-- Replacing a non-empty pattern inside exactly itself yields the replacement. -/
theorem replaceAll_self (pat repl : List Char) (h : pat.isEmpty = false) :
    replaceAll pat repl pat = repl := by
  cases pat with
  | nil => simp at h
  | cons c rest =>
    show replaceAllAux (rest.length + 1) (c :: rest) repl (c :: rest) = repl
    have hpre : (c :: rest).isPrefixOf (c :: rest) = true :=
      List.isPrefixOf_iff_prefix.mpr (List.prefix_refl _)
    unfold replaceAllAux
    simp only [List.isEmpty_cons, Bool.not_false, hpre, Bool.and_self, if_pos]
    rw [List.drop_length]
    rw [replaceAllAux_nil]
    simp

theorem restore_nil (s : List Char) : restore [] s = s := rfl

theorem restore_cons (a b : List Char) (bs : List (List Char × List Char)) (s : List Char) :
    restore ((a, b) :: bs) s = restore bs (replaceAll a b s) := rfl

/-- A string with no straight quote characters fails `_has_straight_quotes`. -/
theorem has_straight_quotes_false (t : List Char)
    (hd : '\u0022' ∉ t) (hs : '\u0027' ∉ t) : _has_straight_quotes t = false := by
  unfold _has_straight_quotes
  have h1 : t.contains '\u0022' = false := by
    rw [Bool.eq_false_iff]
    intro hc
    exact hd (List.elem_iff.mp hc)
  have h2 : t.contains '\u0027' = false := by
    rw [Bool.eq_false_iff]
    intro hc
    exact hs (List.elem_iff.mp hc)
  rw [h1, h2]
  rfl

/-- `_has_straight_quotes` false means no straight quote is a member. -/
theorem not_mem_of_has_straight_quotes_false (t : List Char)
    (h : _has_straight_quotes t = false) : '\u0022' ∉ t ∧ '\u0027' ∉ t := by
  unfold _has_straight_quotes at h
  rw [Bool.or_eq_false_iff] at h
  constructor
  · intro hm
    have he : List.elem '\u0022' t = true := List.elem_iff.mpr hm
    have hf : List.elem '\u0022' t = false := h.1
    rw [he] at hf
    cases hf
  · intro hm
    have he : List.elem '\u0027' t = true := List.elem_iff.mpr hm
    have hf : List.elem '\u0027' t = false := h.2
    rw [he] at hf
    cases hf

/-- What a successful opener backtracking step guarantees. -/
theorem tryK_spec (k : Nat) (s : List Char) (kk j : Nat)
    (h : tryK k s = some (kk, j)) :
    1 ≤ kk ∧ kk ≤ k ∧ findSub (ticks kk) (s.drop kk) = some j := by
  induction k with
  | zero => cases h
  | succ k ih =>
    unfold tryK at h
    split at h
    · next j0 hf =>
      cases h
      exact ⟨Nat.succ_le_succ (Nat.zero_le k), Nat.le_refl _, hf⟩
    · obtain ⟨h1, h2, h3⟩ := ih h
      exact ⟨h1, Nat.le_succ_of_le h2, h3⟩

/-- A backtick run no longer than the leading run is a prefix. -/
theorem ticks_isPrefixOf_of_le_leadRun (k : Nat) :
    ∀ s : List Char, k ≤ leadRun s → (ticks k).isPrefixOf s = true := by
  induction k with
  | zero =>
    intro s _
    simp [ticks, List.isPrefixOf]
  | succ k ih =>
    intro s hk
    cases s with
    | nil => simp [leadRun] at hk
    | cons c rest =>
      unfold leadRun at hk
      by_cases hc : c = '\u0060'
      · rw [if_pos hc] at hk
        have hk2 : k ≤ leadRun rest := Nat.le_of_succ_le_succ hk
        have hrep : ticks (k + 1) = '\u0060' :: ticks k := by
          simp [ticks, List.replicate_succ]
        rw [hrep, hc]
        show (('\u0060' == '\u0060') && (ticks k).isPrefixOf rest) = true
        simp [ih rest hk2]
      · rw [if_neg hc] at hk
        omega

/-- If the tail has no backtick, every opener length fails. -/
theorem tryK_none_of_no_tick_tail (s : List Char)
    (h : ∀ i, 1 ≤ i → '\u0060' ∉ s.drop i) : ∀ k, tryK k s = none := by
  intro k
  induction k with
  | zero => rfl
  | succ k ih =>
    unfold tryK
    cases hf : findSub (ticks (k + 1)) (s.drop (k + 1)) with
    | none => simpa [hf] using ih
    | some j =>
      have hmem := tick_mem_of_findSub_ticks k _ j hf
      exact absurd hmem (h (k + 1) (Nat.succ_le_succ (Nat.zero_le k)))

/-- With at most one backtick there is no inline-code match. -/
theorem inlineFind_none_of_count_le_one (t : List Char) (h : t.count '\u0060' ≤ 1) :
    inlineFind t = none := by
  induction t with
  | nil => rfl
  | cons c rest ih =>
    unfold inlineFind
    by_cases hc : c = '\u0060'
    · rw [if_pos hc]
      have hcount : rest.count '\u0060' = 0 := by
        rw [List.count_cons] at h
        simp [hc] at h
        omega
      have hnot : '\u0060' ∉ rest := by
        intro hm
        have := List.count_pos_iff.mpr hm
        omega
      have htry : tryK (leadRun (c :: rest)) (c :: rest) = none := by
        apply tryK_none_of_no_tick_tail
        · intro i hi hm
          have : '\u0060' ∈ rest := by
            have hdrop : (c :: rest).drop i = rest.drop (i - 1) := by
              cases i with
              | zero => omega
              | succ i0 => simp
            rw [hdrop] at hm
            exact List.mem_of_mem_drop hm
          exact hnot this
      rw [htry]
      have hrest : inlineFind rest = none := ih (by omega)
      rw [hrest]
      rfl
    · rw [if_neg hc]
      have hrest : inlineFind rest = none := ih (by
        rw [List.count_cons] at h
        simp [Ne.symm hc] at h
        omega)
      rw [hrest]
      rfl

/-- Every inline-code match decomposes as an opener run of `k` backticks, a
content of `j` characters, and a closing run of the same `k` backticks. -/
theorem inlineFind_spec (t : List Char) :
    ∀ i k j : Nat, inlineFind t = some (i, k, j) →
      1 ≤ k ∧ (ticks k).isPrefixOf (t.drop i) = true ∧
        (ticks k).isPrefixOf (t.drop (i + (k + j))) = true ∧
        i + (k + j + k) ≤ t.length := by
  induction t with
  | nil => intro i k j h; cases h
  | cons c rest ih =>
    intro i k j h
    unfold inlineFind at h
    by_cases hc : c = '\u0060'
    · rw [if_pos hc] at h
      cases htry : tryK (leadRun (c :: rest)) (c :: rest) with
      | some kj =>
        rw [htry] at h
        obtain ⟨k0, j0⟩ := kj
        cases h
        obtain ⟨h1, h2, h3⟩ := tryK_spec _ _ _ _ htry
        have hopen : (ticks k).isPrefixOf (c :: rest) = true :=
          ticks_isPrefixOf_of_le_leadRun k (c :: rest) h2
        have hklen : k ≤ (c :: rest).length := by
          have := (List.isPrefixOf_iff_prefix.mp hopen).length_le
          simpa [ticks] using this
        obtain ⟨hcl, hbound⟩ := findSub_spec (ticks k) ((c :: rest).drop k) j h3
        have hdd : ((c :: rest).drop k).drop j = (c :: rest).drop (k + j) := by
          rw [List.drop_drop]
        rw [hdd] at hcl
        refine ⟨h1, by simpa using hopen, by simpa using hcl, ?_⟩
        rw [List.length_drop] at hbound
        simp only [ticks, List.length_replicate] at hbound
        simp [ticks] at hklen
        omega
      | none =>
        rw [htry] at h
        obtain ⟨⟨i0, k0, j0⟩, h0, heq⟩ := Option.map_eq_some'.mp h
        simp at heq
        obtain ⟨rfl, rfl, rfl⟩ := heq
        obtain ⟨h1, h2, h3, h4⟩ := ih i0 k0 j0 h0
        refine ⟨h1, by simpa using h2, by
          have : (c :: rest).drop (i0 + 1 + (k0 + j0)) = rest.drop (i0 + (k0 + j0)) := by
            rw [show i0 + 1 + (k0 + j0) = (i0 + (k0 + j0)) + 1 by omega]
            simp
          rw [this]
          exact h3, by simp; omega⟩
    · rw [if_neg hc] at h
      obtain ⟨⟨i0, k0, j0⟩, h0, heq⟩ := Option.map_eq_some'.mp h
      simp at heq
      obtain ⟨rfl, rfl, rfl⟩ := heq
      obtain ⟨h1, h2, h3, h4⟩ := ih i0 k0 j0 h0
      refine ⟨h1, by simpa using h2, by
        have : (c :: rest).drop (i0 + 1 + (k0 + j0)) = rest.drop (i0 + (k0 + j0)) := by
          rw [show i0 + 1 + (k0 + j0) = (i0 + (k0 + j0)) + 1 by omega]
          simp
        rw [this]
        exact h3, by simp; omega⟩

theorem fencedSplit_nil : fencedSplit ([] : List Char) = none := rfl

/-- One positive step of the fenced substitution scan. -/
theorem fencedSubAux_succ (fuel idx : Nat) (t pre m post : List Char)
    (h : fencedSplit t = some (pre, m, post)) :
    fencedSubAux (fuel + 1) idx t =
      (pre ++ placeholder idx ++ (fencedSubAux fuel (idx + 1) post).1,
       (placeholder idx, m) :: (fencedSubAux fuel (idx + 1) post).2.1,
       (fencedSubAux fuel (idx + 1) post).2.2) := by
  simp [fencedSubAux, h]

/-! ## Claims about the markdown shield -/

/-- C4: on input with no straight quote characters, both public functions
are the identity. -/
theorem identity_on_quote_free_input (s : List Char)
    (hd : '\u0022' ∉ s) (hs : '\u0027' ∉ s) :
    convert_to_smart_quotes s = s ∧ smart_quote_markdown s = s := by
  have hid := convert_id_of_no_straight s
    (fun c hc => ⟨fun e => hd (e ▸ hc), fun e => hs (e ▸ hc)⟩)
  refine ⟨hid, ?_⟩
  unfold smart_quote_markdown
  rw [has_straight_quotes_false s hd hs]
  rfl

/-- Witness for C4 at a concrete quote-free string. -/
theorem identity_on_quote_free_input_witness :
    convert_to_smart_quotes "Hello world".data = "Hello world".data ∧
      smart_quote_markdown "Hello world".data = "Hello world".data :=
  identity_on_quote_free_input "Hello world".data (by decide) (by decide)

/-- C6: every inline-code match consists of an opener run of `k ≥ 1`
backticks and a closing run of exactly the same `k` backticks around the
content, and in the pipeline the inline extraction is applied to the
output of the fenced extraction (fenced first, inline second, indented
last, one shared block list and placeholder counter). -/
theorem inline_spans_matching_backtick_runs :
    (∀ (t : List Char) (i k j : Nat), inlineFind t = some (i, k, j) →
      1 ≤ k ∧ (ticks k).isPrefixOf (t.drop i) = true ∧
        (ticks k).isPrefixOf (t.drop (i + (k + j))) = true ∧
        i + (k + j + k) ≤ t.length) ∧
    (∀ t : List Char, markdownPipeline t =
      restore ((fencedSub 0 t).2.1 ++
          (inlineSub (fencedSub 0 t).2.2 (fencedSub 0 t).1).2.1 ++
          (indentSub (inlineSub (fencedSub 0 t).2.2 (fencedSub 0 t).1).2.2
              (inlineSub (fencedSub 0 t).2.2 (fencedSub 0 t).1).1).2.1)
        (convert_to_smart_quotes
          (indentSub (inlineSub (fencedSub 0 t).2.2 (fencedSub 0 t).1).2.2
              (inlineSub (fencedSub 0 t).2.2 (fencedSub 0 t).1).1).1)) :=
  ⟨fun t i k j hm => inlineFind_spec t i k j hm, fun _ => rfl⟩

/-- Witness for C6: the span `(2 backticks) a (2 backticks)` is matched with
equal two-backtick delimiters. -/
theorem inline_spans_matching_backtick_runs_witness :
    1 ≤ 2 ∧ (ticks 2).isPrefixOf ("``a``".data.drop 0) = true ∧
      (ticks 2).isPrefixOf ("``a``".data.drop (0 + (2 + 1))) = true ∧
      0 + (2 + 1 + 2) ≤ "``a``".data.length :=
  inline_spans_matching_backtick_runs.1 "``a``".data 0 2 1 (by decide)

/-- C7 counterexample: on a quote-free input that nests an inline span
around a fenced block, the fast path (which returns the input) differs
from the full mask-convert-restore pipeline, whose ordered restoration
leaves the placeholder of the nested fenced block in the output. -/
theorem fast_path_pipeline_counterexample :
    _has_straight_quotes "` ```x``` `".data = false ∧
      smart_quote_markdown "` ```x``` `".data = "` ```x``` `".data ∧
      markdownPipeline "` ```x``` `".data ≠ "` ```x``` `".data :=
  ⟨by decide, by decide, by decide⟩

/-- C8: an opening fence with no closing fence yields no fenced region,
and with at most one backtick (so that no backtick opener can be closed)
and no indented line, `smart_quote_markdown` treats the whole input as
prose: it agrees with plain `convert_to_smart_quotes`. -/
theorem unmatched_openers_are_prose :
    (∀ (t : List Char) (i : Nat), findSub tick3 t = some i →
      findSub tick3 (t.drop (i + 3)) = none → fencedSplit t = none) ∧
    (∀ t : List Char, t.count '\u0060' ≤ 1 → indentFind t = none →
      smart_quote_markdown t = convert_to_smart_quotes t) := by
  refine ⟨fun t i h1 h2 => fencedSplit_none_of_unterminated t i h1 h2, fun t hc hn => ?_⟩
  by_cases hq : _has_straight_quotes t = true
  · unfold smart_quote_markdown
    rw [if_pos hq]
    unfold markdownPipeline
    rw [fencedSub_of_none 0 t (fencedSplit_none_of_count_le_one t hc)]
    simp only
    rw [inlineSub_of_none 0 t (inlineFind_none_of_count_le_one t hc)]
    simp only
    rw [indentSub_of_none 0 t hn]
    simp only [List.append_nil, List.nil_append]
    rfl
  · have hq' : _has_straight_quotes t = false := by
      rw [Bool.eq_false_iff]
      exact hq
    have hmem := not_mem_of_has_straight_quotes_false t hq'
    have hconv : convert_to_smart_quotes t = t := convert_id_of_no_straight t
      (fun c hcm => ⟨fun e => hmem.1 (e ▸ hcm), fun e => hmem.2 (e ▸ hcm)⟩)
    unfold smart_quote_markdown
    rw [if_neg hq, hconv]

/-- Witness for C8: an unterminated fence has no fenced match, and a lone
backtick before quoted text is converted as ordinary prose. -/
theorem unmatched_openers_are_prose_witness :
    fencedSplit "```x".data = none ∧
      smart_quote_markdown "`x \"y\"".data = convert_to_smart_quotes "`x \"y\"".data :=
  ⟨unmatched_openers_are_prose.1 "```x".data 0 (by decide) (by decide),
   unmatched_openers_are_prose.2 "`x \"y\"".data (by decide) (by decide)⟩

/-! ## Further lemmas on the masking passes -/

theorem inlineFind_nil : inlineFind ([] : List Char) = none := rfl

theorem inlineSplit_nil : inlineSplit ([] : List Char) = none := rfl

theorem indentFindAux_nil (b : Bool) : indentFindAux ([] : List Char) b = none := rfl

theorem indentSplit_nil (b : Bool) : indentSplit b ([] : List Char) = none := rfl

theorem indentSubAux_of_none_any (fuel idx : Nat) (b : Bool) (t : List Char)
    (h : indentFindAux t b = none) : indentSubAux fuel idx b t = (t, [], idx) := by
  cases fuel with
  | zero => rfl
  | succ f => simp [indentSubAux, indentSplit, h]

/-- One positive step of the inline substitution scan. -/
theorem inlineSubAux_succ (fuel idx : Nat) (t pre m post : List Char)
    (h : inlineSplit t = some (pre, m, post)) :
    inlineSubAux (fuel + 1) idx t =
      (pre ++ placeholder idx ++ (inlineSubAux fuel (idx + 1) post).1,
       (placeholder idx, m) :: (inlineSubAux fuel (idx + 1) post).2.1,
       (inlineSubAux fuel (idx + 1) post).2.2) := by
  simp [inlineSubAux, h]

/-- One positive step of the indent substitution scan. -/
theorem indentSubAux_succ (fuel idx : Nat) (b : Bool) (t pre m post : List Char)
    (h : indentSplit b t = some (pre, m, post)) :
    indentSubAux (fuel + 1) idx b t =
      (pre ++ placeholder idx ++ (indentSubAux fuel (idx + 1) false post).1,
       (placeholder idx, m) :: (indentSubAux fuel (idx + 1) false post).2.1,
       (indentSubAux fuel (idx + 1) false post).2.2) := by
  simp [indentSubAux, h]

/-- Each match split decomposes the text as take / take-of-drop / drop. -/
theorem fencedSplit_parts (t pre m post : List Char)
    (h : fencedSplit t = some (pre, m, post)) :
    ∃ i L, pre = t.take i ∧ m = (t.drop i).take L ∧ post = t.drop (i + L) := by
  unfold fencedSplit at h
  cases h1 : findSub tick3 t with
  | none => simp [h1] at h
  | some i =>
    cases h2 : findSub tick3 (t.drop (i + 3)) with
    | none => simp [h1, h2] at h
    | some j =>
      simp [h1, h2] at h
      exact ⟨i, j + 6, h.1.symm, h.2.1.symm, h.2.2.symm⟩

theorem inlineSplit_parts (t pre m post : List Char)
    (h : inlineSplit t = some (pre, m, post)) :
    ∃ i L, pre = t.take i ∧ m = (t.drop i).take L ∧ post = t.drop (i + L) := by
  unfold inlineSplit at h
  cases h1 : inlineFind t with
  | none => simp [h1] at h
  | some x =>
    obtain ⟨i, k, j⟩ := x
    simp [h1] at h
    exact ⟨i, k + j + k, h.1.symm, h.2.1.symm, h.2.2.symm⟩

theorem indentSplit_parts (b : Bool) (t pre m post : List Char)
    (h : indentSplit b t = some (pre, m, post)) :
    ∃ i L, pre = t.take i ∧ m = (t.drop i).take L ∧ post = t.drop (i + L) := by
  unfold indentSplit at h
  cases h1 : indentFindAux t b with
  | none => simp [h1] at h
  | some x =>
    obtain ⟨i, L⟩ := x
    simp [h1] at h
    exact ⟨i, L, h.1.symm, h.2.1.symm, h.2.2.symm⟩

/-- The three split pieces concatenate back to the whole text. -/
theorem split_join (t pre m post : List Char) (i L : Nat)
    (hpre : pre = t.take i) (hm : m = (t.drop i).take L) (hpost : post = t.drop (i + L)) :
    pre ++ (m ++ post) = t := by
  subst hpre
  subst hm
  subst hpost
  rw [show t.drop (i + L) = (t.drop i).drop L from by rw [List.drop_drop, Nat.add_comm]]
  rw [List.take_append_drop, List.take_append_drop]

/-- The placeholder text contains no straight quote. -/
theorem placeholder0_no_quotes : ∀ c ∈ placeholder 0, c ≠ '\u0022' ∧ c ≠ '\u0027' := by
  decide

theorem placeholder0_ne_nil : placeholder 0 ≠ [] := by decide

/-- The placeholder has no nontrivial border: no proper nonempty suffix of
it is also a prefix, so occurrences of it cannot overlap. -/
theorem placeholder0_borderFree :
    ∀ d, d < (placeholder 0).length → 1 ≤ d →
      (placeholder 0).drop d ≠ (placeholder 0).take ((placeholder 0).length - d) := by
  decide

/-- A text matched whole by the fenced pass survives the pipeline. -/
theorem pipeline_whole_fenced (t : List Char)
    (h : fencedSplit t = some ([], t, [])) : markdownPipeline t = t := by
  obtain ⟨c, ts, rfl⟩ : ∃ c ts, t = c :: ts := by
    cases t with
    | nil => rw [fencedSplit_nil] at h; cases h
    | cons c ts => exact ⟨c, ts, rfl⟩
  have hfsub : fencedSub 0 (c :: ts) = (placeholder 0, [(placeholder 0, c :: ts)], 1) := by
    unfold fencedSub
    rw [List.length_cons, fencedSubAux_succ ts.length 0 _ _ _ _ h,
      fencedSubAux_of_none ts.length 1 ([] : List Char) fencedSplit_nil]
    simp
  unfold markdownPipeline
  rw [hfsub]
  simp only
  rw [inlineSub_of_none 1 _ (by decide)]
  simp only
  rw [indentSub_of_none 1 _ (by decide)]
  simp only [List.append_nil]
  rw [show convert_to_smart_quotes (placeholder 0) = placeholder 0 from by decide,
    restore_cons, restore_nil]
  exact replaceAll_self (placeholder 0) _ (by decide)

/-- A text matched whole as one inline span, with no fenced match,
survives the pipeline. -/
theorem pipeline_whole_inline (t : List Char)
    (hf : fencedSplit t = none) (h : inlineSplit t = some ([], t, [])) :
    markdownPipeline t = t := by
  obtain ⟨c, ts, rfl⟩ : ∃ c ts, t = c :: ts := by
    cases t with
    | nil => rw [inlineSplit_nil] at h; cases h
    | cons c ts => exact ⟨c, ts, rfl⟩
  have hisub : inlineSub 0 (c :: ts) = (placeholder 0, [(placeholder 0, c :: ts)], 1) := by
    unfold inlineSub
    rw [List.length_cons, inlineSubAux_succ ts.length 0 _ _ _ _ h,
      inlineSubAux_of_none ts.length 1 ([] : List Char) inlineFind_nil]
    simp
  unfold markdownPipeline
  rw [fencedSub_of_none 0 _ hf]
  simp only
  rw [hisub]
  simp only
  rw [indentSub_of_none 1 _ (by decide)]
  simp only [List.append_nil, List.nil_append]
  rw [show convert_to_smart_quotes (placeholder 0) = placeholder 0 from by decide,
    restore_cons, restore_nil]
  exact replaceAll_self (placeholder 0) _ (by decide)

/-- A text matched whole as one indented block, with no fenced and no
inline match, survives the pipeline. -/
theorem pipeline_whole_indent (t : List Char)
    (hf : fencedSplit t = none) (hi : inlineFind t = none)
    (h : indentSplit true t = some ([], t, [])) :
    markdownPipeline t = t := by
  obtain ⟨c, ts, rfl⟩ : ∃ c ts, t = c :: ts := by
    cases t with
    | nil => rw [indentSplit_nil] at h; cases h
    | cons c ts => exact ⟨c, ts, rfl⟩
  have hnsub : indentSub 0 (c :: ts) = (placeholder 0, [(placeholder 0, c :: ts)], 1) := by
    unfold indentSub
    rw [List.length_cons, indentSubAux_succ ts.length 0 true _ _ _ _ h,
      indentSubAux_of_none_any ts.length 1 false ([] : List Char) (indentFindAux_nil false)]
    simp
  unfold markdownPipeline
  rw [fencedSub_of_none 0 _ hf]
  simp only
  rw [inlineSub_of_none 0 _ hi]
  simp only
  rw [hnsub]
  simp only [List.append_nil, List.nil_append]
  rw [show convert_to_smart_quotes (placeholder 0) = placeholder 0 from by decide,
    restore_cons, restore_nil]
  exact replaceAll_self (placeholder 0) _ (by decide)

/-- C5 (amended): `smart_quote_markdown` returns unchanged every text that
one masking pass matches whole as a single protected region with no
earlier-pass match: a text wholly matched by the fenced pass (in
particular any single fenced code block), a text wholly matched as one
inline code span when the fenced pass finds nothing, and a text that is
one whole indented block when neither the fenced nor the inline pass
finds anything — whatever straight quotes the region contains. -/
theorem protected_region_whole_unchanged (t : List Char)
    (h : fencedSplit t = some ([], t, []) ∨
      (fencedSplit t = none ∧ inlineSplit t = some ([], t, [])) ∨
      (fencedSplit t = none ∧ inlineFind t = none ∧
        indentSplit true t = some ([], t, []))) :
    smart_quote_markdown t = t := by
  unfold smart_quote_markdown
  by_cases hq : _has_straight_quotes t = true
  · rw [if_pos hq]
    rcases h with h | ⟨hf, h⟩ | ⟨hf, hi, h⟩
    · exact pipeline_whole_fenced t h
    · exact pipeline_whole_inline t hf h
    · exact pipeline_whole_indent t hf hi h
  · rw [if_neg hq]

/-- Witness for C5: the specification's fenced example, straight quotes
inside, returned unchanged. -/
theorem protected_region_whole_unchanged_witness :
    smart_quote_markdown "```\ncode with \"quotes\"\n```".data =
      "```\ncode with \"quotes\"\n```".data :=
  protected_region_whole_unchanged _ (Or.inl (by decide))

/-- C5 counterexample: the text consisting of one whole indented code
block whose line contains an inline code span is NOT returned unchanged:
the inline pass masks the span first, the indent pass then masks the line
containing that placeholder, and restoration in recorded order leaves the
inner placeholder in the output. -/
theorem protected_only_text_counterexample :
    indentFind "    `a` \"x\"".data = some (0, "    `a` \"x\"".data.length) ∧
      fencedSplit "    `a` \"x\"".data = none ∧
      smart_quote_markdown "    `a` \"x\"".data ≠ "    `a` \"x\"".data :=
  ⟨by decide, by decide, by decide⟩

/-! ## Occurrence reasoning for `replaceAll` -/

theorem replaceAllAux_cons_pos (fuel : Nat) (pat repl : List Char) (c : Char) (rest : List Char)
    (hg : (!pat.isEmpty && pat.isPrefixOf (c :: rest)) = true) :
    replaceAllAux (fuel + 1) pat repl (c :: rest) =
      repl ++ replaceAllAux fuel pat repl ((c :: rest).drop pat.length) := by
  simp [replaceAllAux, hg]

theorem replaceAllAux_cons_neg (fuel : Nat) (pat repl : List Char) (c : Char) (rest : List Char)
    (hg : (!pat.isEmpty && pat.isPrefixOf (c :: rest)) = false) :
    replaceAllAux (fuel + 1) pat repl (c :: rest) =
      c :: replaceAllAux fuel pat repl rest := by
  simp [replaceAllAux, hg]

/-- The fuel of the replacement scan is irrelevant once it covers the
length of the text. -/
theorem replaceAllAux_fuel_le (pat repl : List Char) :
    ∀ (n fuel : Nat) (s : List Char), s.length ≤ fuel → fuel ≤ n →
      replaceAllAux fuel pat repl s = replaceAll pat repl s := by
  intro n
  induction n with
  | zero =>
    intro fuel s hs hf
    have hf0 : fuel = 0 := Nat.le_zero.mp hf
    subst hf0
    have hs0 : s = [] := List.eq_nil_of_length_eq_zero (Nat.le_zero.mp hs)
    subst hs0
    rfl
  | succ n ih =>
    intro fuel s hs hf
    cases fuel with
    | zero =>
      have hs0 : s = [] := List.eq_nil_of_length_eq_zero (Nat.le_zero.mp hs)
      subst hs0
      rfl
    | succ f =>
      cases s with
      | nil =>
        rw [replaceAllAux_nil]
        unfold replaceAll
        rw [replaceAllAux_nil]
      | cons c rest =>
        have hsl : rest.length + 1 ≤ f + 1 := by simpa using hs
        have hfn : f ≤ n := Nat.le_of_succ_le_succ hf
        have hrn : rest.length ≤ n := by omega
        by_cases hg : (!pat.isEmpty && pat.isPrefixOf (c :: rest)) = true
        · have hpat1 : 1 ≤ pat.length := by
            cases pat with
            | nil => simp at hg
            | cons a l => simp
          have hdl : ((c :: rest).drop pat.length).length ≤ rest.length := by
            rw [List.length_drop]
            simp only [List.length_cons]
            omega
          rw [replaceAllAux_cons_pos f _ _ _ _ hg]
          unfold replaceAll
          rw [show (c :: rest).length = rest.length + 1 from by simp]
          rw [replaceAllAux_cons_pos rest.length _ _ _ _ hg]
          have h1 := ih f ((c :: rest).drop pat.length) (by omega) hfn
          have h2 := ih rest.length ((c :: rest).drop pat.length) hdl hrn
          rw [h1, h2]
        · have hg2 : (!pat.isEmpty && pat.isPrefixOf (c :: rest)) = false :=
            Bool.eq_false_iff.mpr hg
          rw [replaceAllAux_cons_neg f _ _ _ _ hg2]
          unfold replaceAll
          rw [show (c :: rest).length = rest.length + 1 from by simp]
          rw [replaceAllAux_cons_neg rest.length _ _ _ _ hg2]
          have h1 := ih f rest (by omega) hfn
          have h2 := ih rest.length rest le_rfl hrn
          rw [h1, h2]

theorem replaceAllAux_ge (pat repl : List Char) (fuel : Nat) (s : List Char)
    (h : s.length ≤ fuel) : replaceAllAux fuel pat repl s = replaceAll pat repl s :=
  replaceAllAux_fuel_le pat repl fuel fuel s h le_rfl

/-- If the pattern occurs nowhere, the replacement is the identity. -/
theorem replaceAll_id_of_no_prefix (pat repl : List Char) :
    ∀ s : List Char, (∀ p, pat.isPrefixOf (s.drop p) = false) →
      replaceAll pat repl s = s := by
  intro s
  induction s with
  | nil => intro _; rfl
  | cons c rest ih =>
    intro h
    have h0 : pat.isPrefixOf (c :: rest) = false := by simpa using h 0
    have hg : (!pat.isEmpty && pat.isPrefixOf (c :: rest)) = false := by
      rw [h0, Bool.and_false]
    unfold replaceAll
    rw [show (c :: rest).length = rest.length + 1 from by simp]
    rw [replaceAllAux_cons_neg rest.length _ _ _ _ hg]
    have hrfl : replaceAllAux rest.length pat repl rest = replaceAll pat repl rest := rfl
    rw [hrfl, ih (fun p => by simpa using h (p + 1))]

/-- If `findSub` finds nothing, the pattern is a prefix at no position. -/
theorem findSub_none_no_prefix (pat : List Char) :
    ∀ s : List Char, findSub pat s = none →
      ∀ p, pat.isPrefixOf (s.drop p) = false := by
  intro s
  induction s with
  | nil =>
    intro h p
    unfold findSub at h
    split at h
    · cases h
    · next hp =>
      rw [List.drop_nil, Bool.eq_false_iff]
      exact hp
  | cons c rest ih =>
    intro h p
    unfold findSub at h
    split at h
    · cases h
    · next hp =>
      have hrest : findSub pat rest = none := by
        cases hr : findSub pat rest with
        | none => rfl
        | some v => rw [hr] at h; cases h
      cases p with
      | zero =>
        rw [List.drop_zero, Bool.eq_false_iff]
        exact hp
      | succ p0 =>
        rw [List.drop_succ_cons]
        exact ih hrest p0

/-- Walking the replacement over `pre ++ (pat ++ Y)`: when the pattern is
a prefix at no position inside `pre`, exactly the marked occurrence is
replaced and the scan continues after it. -/
theorem replaceAll_walk (pat repl : List Char) (hne : pat.isEmpty = false) :
    ∀ (pre Y : List Char),
      (∀ p, p < pre.length → pat.isPrefixOf ((pre ++ (pat ++ Y)).drop p) = false) →
      replaceAll pat repl (pre ++ (pat ++ Y)) =
        pre ++ (repl ++ replaceAll pat repl Y) := by
  intro pre
  induction pre with
  | nil =>
    intro Y _
    simp only [List.nil_append]
    obtain ⟨a, pat0, rfl⟩ : ∃ a pat0, pat = a :: pat0 := by
      cases pat with
      | nil => simp at hne
      | cons a l => exact ⟨a, l, rfl⟩
    have hgp : (!(a :: pat0).isEmpty &&
        (a :: pat0).isPrefixOf (a :: (pat0 ++ Y))) = true := by
      have hself : (a :: pat0).isPrefixOf ((a :: pat0) ++ Y) = true :=
        List.isPrefixOf_iff_prefix.mpr (List.prefix_append _ _)
      simp
    rw [show (a :: pat0) ++ Y = a :: (pat0 ++ Y) from rfl]
    unfold replaceAll
    rw [show (a :: (pat0 ++ Y)).length = (pat0.length + Y.length) + 1 from by
      simp only [List.length_cons, List.length_append]]
    rw [replaceAllAux_cons_pos (pat0.length + Y.length) _ _ _ _ hgp]
    rw [show (a :: (pat0 ++ Y)).drop (a :: pat0).length = Y from by
      simp only [List.length_cons, List.drop_succ_cons]
      exact List.drop_left pat0 Y]
    rw [replaceAllAux_ge _ _ _ _ (Nat.le_add_left _ _)]
    rfl
  | cons c pre0 ih =>
    intro Y hp
    have h0 : pat.isPrefixOf (c :: (pre0 ++ (pat ++ Y))) = false := by
      simpa using hp 0 (by simp)
    rw [show (c :: pre0) ++ (pat ++ Y) = c :: (pre0 ++ (pat ++ Y)) from rfl]
    unfold replaceAll
    rw [show (c :: (pre0 ++ (pat ++ Y))).length = (pre0 ++ (pat ++ Y)).length + 1 from by
      simp]
    rw [replaceAllAux_cons_neg _ _ _ _ _ (by rw [h0, Bool.and_false])]
    have hrfl : replaceAllAux (pre0 ++ (pat ++ Y)).length pat repl (pre0 ++ (pat ++ Y)) =
        replaceAll pat repl (pre0 ++ (pat ++ Y)) := rfl
    rw [hrfl]
    rw [ih Y (fun p hplt => by
      have := hp (p + 1) (by simp only [List.length_cons]; omega)
      simpa using this)]
    rfl

/-- If the placeholder occurs nowhere in `t`, then in the masked text
`pre ++ placeholder ++ post` (with `pre`, `post` contiguous pieces of `t`)
it is a prefix at no position strictly inside `pre`: an occurrence there
would either lie inside `t` or force a border of the placeholder. -/
theorem no_prefix_in_pre (t pre post : List Char) (i : Nat)
    (hpre : pre = t.take i)
    (hnoT : ∀ p, (placeholder 0).isPrefixOf (t.drop p) = false) :
    ∀ p, p < pre.length →
      (placeholder 0).isPrefixOf ((pre ++ (placeholder 0 ++ post)).drop p) = false := by
  intro p hplt
  set ph := placeholder 0 with hph
  cases hb : ph.isPrefixOf ((pre ++ (ph ++ post)).drop p) with
  | false => rfl
  | true =>
    exfalso
    have hdrop : (pre ++ (ph ++ post)).drop p = pre.drop p ++ (ph ++ post) := by
      rw [List.drop_append_eq_append_drop,
        Nat.sub_eq_zero_of_le (le_of_lt hplt), List.drop_zero]
    rw [hdrop] at hb
    have hpreP : ph <+: (pre.drop p ++ (ph ++ post)) := List.isPrefixOf_iff_prefix.mp hb
    set d := pre.length - p with hd
    have hd1 : 1 ≤ d := by omega
    have hdlen : (pre.drop p).length = d := by rw [List.length_drop]
    obtain ⟨r, hr⟩ := hpreP
    by_cases hL : ph.length ≤ d
    · have htake : (ph ++ r).take ph.length =
          (pre.drop p ++ (ph ++ post)).take ph.length := by rw [hr]
      rw [List.take_left] at htake
      rw [List.take_append_eq_append_take] at htake
      rw [show ph.length - (pre.drop p).length = 0 from by rw [hdlen]; omega,
        List.take_zero, List.append_nil] at htake
      have hph_pre : ph <+: pre.drop p := htake ▸ List.take_prefix _ _
      have hpd : pre.drop p = (t.drop p).take (i - p) := by
        rw [hpre]
        exact List.drop_take i p t
      have hph_t : ph <+: t.drop p :=
        hph_pre.trans (hpd ▸ List.take_prefix (i - p) (t.drop p))
      have : ph.isPrefixOf (t.drop p) = true := List.isPrefixOf_iff_prefix.mpr hph_t
      rw [hnoT p] at this
      cases this
    · push_neg at hL
      have htake : (ph ++ r).take d = (pre.drop p ++ (ph ++ post)).take d := by rw [hr]
      rw [List.take_append_eq_append_take, List.take_append_eq_append_take,
        Nat.sub_eq_zero_of_le (le_of_lt hL), List.take_zero, List.append_nil,
        hdlen, Nat.sub_self, List.take_zero, List.append_nil,
        show (pre.drop p).take d = pre.drop p from by
          rw [← hdlen]; exact List.take_length _] at htake
      have hdrop2 : (ph ++ r).drop d = (pre.drop p ++ (ph ++ post)).drop d := by rw [hr]
      rw [List.drop_append_eq_append_drop, List.drop_append_eq_append_drop,
        Nat.sub_eq_zero_of_le (le_of_lt hL), List.drop_zero,
        hdlen, Nat.sub_self, List.drop_zero,
        show (pre.drop p).drop d = [] from by
          rw [← hdlen]; exact List.drop_length _,
        List.nil_append] at hdrop2
      have hfin : ph.drop d = ph.take (ph.length - d) := by
        have htk : (ph.drop d ++ r).take (ph.length - d) =
            (ph ++ post).take (ph.length - d) := by rw [hdrop2]
        have hlen2 : (ph.drop d).length = ph.length - d := List.length_drop _ _
        rw [List.take_append_eq_append_take, List.take_append_eq_append_take,
          show ph.length - d - (ph.drop d).length = 0 from by rw [hlen2]; omega,
          List.take_zero, List.append_nil,
          show (ph.drop d).take (ph.length - d) = ph.drop d from by
            rw [← hlen2]; exact List.take_length _,
          show ph.length - d - ph.length = 0 from by omega,
          List.take_zero, List.append_nil] at htk
        exact htk
      rw [hph] at hL hfin
      exact placeholder0_borderFree d hL hd1 hfin

/-- Restoring the single recorded block inverts the single mask when the
placeholder does not occur in the original text. -/
theorem restore_single (t pre m post : List Char) (i L : Nat)
    (hpre : pre = t.take i) (hm : m = (t.drop i).take L) (hpost : post = t.drop (i + L))
    (hnoc : findSub (placeholder 0) t = none) :
    replaceAll (placeholder 0) m (pre ++ (placeholder 0 ++ post)) = t := by
  have hnoT := findSub_none_no_prefix (placeholder 0) t hnoc
  have hwalk := replaceAll_walk (placeholder 0) m
    (by decide) pre post (no_prefix_in_pre t pre post i hpre hnoT)
  rw [hwalk, replaceAll_id_of_no_prefix _ _ post (fun q => by
    rw [hpost, List.drop_drop]
    exact hnoT (i + L + q))]
  exact split_join t pre m post i L hpre hm hpost

/-- When no pass finds a region, the pipeline is the identity on
quote-free input. -/
theorem pipeline_no_region (t : List Char)
    (hq : _has_straight_quotes t = false)
    (hf : fencedSplit t = none) (hi : inlineFind t = none) (hn : indentFind t = none) :
    markdownPipeline t = t := by
  have hmem := not_mem_of_has_straight_quotes_false t hq
  have hconv : convert_to_smart_quotes t = t := convert_id_of_no_straight t
    (fun c hc => ⟨fun e => hmem.1 (e ▸ hc), fun e => hmem.2 (e ▸ hc)⟩)
  unfold markdownPipeline
  rw [fencedSub_of_none 0 t hf]
  simp only
  rw [inlineSub_of_none 0 t hi]
  simp only
  rw [indentSub_of_none 0 t hn]
  simp only [List.append_nil, List.nil_append]
  rw [hconv]
  rfl

/-- The conversion leaves a quote-free masked text unchanged. -/
theorem convert_id_masked (t pre post : List Char) (i L : Nat)
    (hq : _has_straight_quotes t = false)
    (hpre : pre = t.take i) (hpost : post = t.drop (i + L)) :
    convert_to_smart_quotes (pre ++ placeholder 0 ++ post) =
      pre ++ placeholder 0 ++ post := by
  have hmem := not_mem_of_has_straight_quotes_false t hq
  apply convert_id_of_no_straight
  intro c hc
  rcases List.mem_append.mp hc with hc1 | hc2
  · rcases List.mem_append.mp hc1 with hcp | hcph
    · have hct : c ∈ t := by
        rw [hpre] at hcp
        exact List.mem_of_mem_take hcp
      exact ⟨fun e => hmem.1 (e ▸ hct), fun e => hmem.2 (e ▸ hct)⟩
    · exact placeholder0_no_quotes c hcph
  · have hct : c ∈ t := by
      rw [hpost] at hc2
      exact List.mem_of_mem_drop hc2
    exact ⟨fun e => hmem.1 (e ▸ hct), fun e => hmem.2 (e ▸ hct)⟩

/-- A single fenced region (and nothing else found) round-trips. -/
theorem pipeline_single_fenced (t pre m post : List Char)
    (hq : _has_straight_quotes t = false)
    (hsplit : fencedSplit t = some (pre, m, post))
    (hrest : fencedSplit post = none)
    (hinl : inlineFind (pre ++ placeholder 0 ++ post) = none)
    (hind : indentFind (pre ++ placeholder 0 ++ post) = none)
    (hnoc : findSub (placeholder 0) t = none) :
    markdownPipeline t = t := by
  obtain ⟨i, L, hpre, hm, hpost⟩ := fencedSplit_parts t pre m post hsplit
  obtain ⟨c0, ts, rfl⟩ : ∃ c0 ts, t = c0 :: ts := by
    cases t with
    | nil => rw [fencedSplit_nil] at hsplit; cases hsplit
    | cons c0 ts => exact ⟨c0, ts, rfl⟩
  have hfsub : fencedSub 0 (c0 :: ts) =
      (pre ++ placeholder 0 ++ post, [(placeholder 0, m)], 1) := by
    unfold fencedSub
    rw [List.length_cons, fencedSubAux_succ ts.length 0 _ _ _ _ hsplit,
      fencedSubAux_of_none ts.length 1 post hrest]
  unfold markdownPipeline
  rw [hfsub]
  simp only
  rw [inlineSub_of_none 1 _ hinl]
  simp only
  rw [indentSub_of_none 1 _ hind]
  simp only [List.append_nil, List.nil_append]
  rw [convert_id_masked _ pre post i L hq hpre hpost, restore_cons, restore_nil,
    List.append_assoc]
  exact restore_single _ pre m post i L hpre hm hpost hnoc

/-- A single inline region (and nothing else found) round-trips. -/
theorem pipeline_single_inline (t pre m post : List Char)
    (hq : _has_straight_quotes t = false)
    (hf : fencedSplit t = none)
    (hsplit : inlineSplit t = some (pre, m, post))
    (hrest : inlineFind post = none)
    (hind : indentFind (pre ++ placeholder 0 ++ post) = none)
    (hnoc : findSub (placeholder 0) t = none) :
    markdownPipeline t = t := by
  obtain ⟨i, L, hpre, hm, hpost⟩ := inlineSplit_parts t pre m post hsplit
  obtain ⟨c0, ts, rfl⟩ : ∃ c0 ts, t = c0 :: ts := by
    cases t with
    | nil => rw [inlineSplit_nil] at hsplit; cases hsplit
    | cons c0 ts => exact ⟨c0, ts, rfl⟩
  have hisub : inlineSub 0 (c0 :: ts) =
      (pre ++ placeholder 0 ++ post, [(placeholder 0, m)], 1) := by
    unfold inlineSub
    rw [List.length_cons, inlineSubAux_succ ts.length 0 _ _ _ _ hsplit,
      inlineSubAux_of_none ts.length 1 post hrest]
  unfold markdownPipeline
  rw [fencedSub_of_none 0 _ hf]
  simp only
  rw [hisub]
  simp only
  rw [indentSub_of_none 1 _ hind]
  simp only [List.append_nil, List.nil_append]
  rw [convert_id_masked _ pre post i L hq hpre hpost, restore_cons, restore_nil,
    List.append_assoc]
  exact restore_single _ pre m post i L hpre hm hpost hnoc

/-- A single indented region (and nothing else found) round-trips. -/
theorem pipeline_single_indent (t pre m post : List Char)
    (hq : _has_straight_quotes t = false)
    (hf : fencedSplit t = none)
    (hi : inlineFind t = none)
    (hsplit : indentSplit true t = some (pre, m, post))
    (hrest : indentFindAux post false = none)
    (hnoc : findSub (placeholder 0) t = none) :
    markdownPipeline t = t := by
  obtain ⟨i, L, hpre, hm, hpost⟩ := indentSplit_parts true t pre m post hsplit
  obtain ⟨c0, ts, rfl⟩ : ∃ c0 ts, t = c0 :: ts := by
    cases t with
    | nil => rw [indentSplit_nil] at hsplit; cases hsplit
    | cons c0 ts => exact ⟨c0, ts, rfl⟩
  have hnsub : indentSub 0 (c0 :: ts) =
      (pre ++ placeholder 0 ++ post, [(placeholder 0, m)], 1) := by
    unfold indentSub
    rw [List.length_cons, indentSubAux_succ ts.length 0 true _ _ _ _ hsplit,
      indentSubAux_of_none_any ts.length 1 false post hrest]
  unfold markdownPipeline
  rw [fencedSub_of_none 0 _ hf]
  simp only
  rw [inlineSub_of_none 0 _ hi]
  simp only
  rw [hnsub]
  simp only [List.append_nil, List.nil_append]
  rw [convert_id_masked _ pre post i L hq hpre hpost, restore_cons, restore_nil,
    List.append_assoc]
  exact restore_single _ pre m post i L hpre hm hpost hnoc

/-- C7 (amended): on input containing neither straight-quote character in
which the masking passes find at most one protected region in total —
none at all, or exactly one fenced, inline, or indented region — and
whose text does not contain the placeholder token, the fast path
(returning the input) is behaviorally equivalent to the full
mask-convert-restore pipeline. -/
theorem fast_path_equiv_at_most_one_region :
    (∀ t : List Char, _has_straight_quotes t = false →
      fencedSplit t = none → inlineFind t = none → indentFind t = none →
      smart_quote_markdown t = t ∧ markdownPipeline t = t) ∧
    (∀ t pre m post : List Char, _has_straight_quotes t = false →
      fencedSplit t = some (pre, m, post) → fencedSplit post = none →
      inlineFind (pre ++ placeholder 0 ++ post) = none →
      indentFind (pre ++ placeholder 0 ++ post) = none →
      findSub (placeholder 0) t = none →
      smart_quote_markdown t = t ∧ markdownPipeline t = t) ∧
    (∀ t pre m post : List Char, _has_straight_quotes t = false →
      fencedSplit t = none → inlineSplit t = some (pre, m, post) →
      inlineFind post = none →
      indentFind (pre ++ placeholder 0 ++ post) = none →
      findSub (placeholder 0) t = none →
      smart_quote_markdown t = t ∧ markdownPipeline t = t) ∧
    (∀ t pre m post : List Char, _has_straight_quotes t = false →
      fencedSplit t = none → inlineFind t = none →
      indentSplit true t = some (pre, m, post) →
      indentFindAux post false = none →
      findSub (placeholder 0) t = none →
      smart_quote_markdown t = t ∧ markdownPipeline t = t) := by
  have hsm : ∀ t : List Char, _has_straight_quotes t = false →
      smart_quote_markdown t = t := by
    intro t hq
    unfold smart_quote_markdown
    rw [hq]
    rfl
  refine ⟨fun t hq hf hi hn => ⟨hsm t hq, pipeline_no_region t hq hf hi hn⟩,
    fun t pre m post hq h1 h2 h3 h4 h5 =>
      ⟨hsm t hq, pipeline_single_fenced t pre m post hq h1 h2 h3 h4 h5⟩,
    fun t pre m post hq h1 h2 h3 h4 h5 =>
      ⟨hsm t hq, pipeline_single_inline t pre m post hq h1 h2 h3 h4 h5⟩,
    fun t pre m post hq h1 h2 h3 h4 h5 =>
      ⟨hsm t hq, pipeline_single_indent t pre m post hq h1 h2 h3 h4 h5⟩⟩

/-- Witness for the amended C7: the quote-free input with one inline code
span agrees between the fast path and the full pipeline. -/
theorem fast_path_equiv_at_most_one_region_witness :
    smart_quote_markdown "a `b` c".data = "a `b` c".data ∧
      markdownPipeline "a `b` c".data = "a `b` c".data :=
  fast_path_equiv_at_most_one_region.2.2.1 "a `b` c".data "a ".data "`b`".data " c".data
    (by decide) (by decide) (by decide) (by decide) (by decide) (by decide)
